import Mathlib

/-!
Verification of the SteganoGuard steganography engine
(`src/core/stegano_engine.py` and `src/core/crypto_manager.py`).

The engine is shallowly embedded: a pixel buffer is a `List Nat` of sample
values (uint8 samples, so every value is `< 256`; theorems carry this bound
as a hypothesis where it matters), payload bytes are `List Nat`, and the bit
strings the Python code manipulates (`'0'`/`'1'` characters) are `List Bool`.

External library calls that are not part of the repository are made explicit
parameters of the embedded functions rather than being reimplemented:
* `zlib.compress` / `zlib.decompress` become `compress : List Nat → List Nat`
  and `decompress : List Nat → Except String (List Nat)` parameters
  (`zlib.decompress` raising on malformed input is an `Except.error`);
* `CryptoManager.encrypt` / `CryptoManager.decrypt` become
  `encrypt : List Nat → String → List Nat` and
  `decrypt : List Nat → String → Except String (List Nat)` parameters
  (the random GCM nonce drawn during a run is part of the `encrypt` function
  supplied for that run);
* `hashlib.sha256(x).digest()` becomes `digest : List Nat → List Nat`;
* `int(time.time())` read inside `_create_secure_header` becomes an explicit
  `timestamp : Nat` parameter of the run;
* the `numpy` `RandomState(seed).permutation(len(flat_img))` derived from the
  password in `_lsb_random_embed` / `_lsb_random_extract` becomes an explicit
  `indices : List Nat` parameter; the source guarantees it is a permutation of
  `[0, sampleCount)`, which theorems assume through a `List.Perm` hypothesis.

Everything else is translated line by line from the Python source.
-/

deriving instance DecidableEq for Except

set_option maxRecDepth 8000

namespace Stegano

/-! ### Bit-string helpers

`format(byte, '08b')` and `format(lsb_bits, f'0{bits}b')` produce the binary
expansion of a number, most-significant bit first, padded to a fixed width.
`int(chunk, 2)` evaluates a bit string as a binary numeral. -/

/-- `natBits w x` is the `w`-character binary expansion of `x`,
most-significant bit first (Python `format(x, f'0{w}b')` for `x < 2^w`). -/
def natBits : Nat → Nat → List Bool
  | 0, _ => []
  | w + 1, x => x.testBit w :: natBits w x

/-- Value of a bit string read as a binary numeral, most-significant bit
first (Python `int(s, 2)`). -/
def bitsVal (l : List Bool) : Nat :=
  l.foldl (fun a c => 2 * a + cond c 1 0) 0

/-- Python `int(chunk.ljust(bits, '0'), 2)`: right-pad the chunk with `'0'`
to width `b`, then read it as a binary numeral. -/
def chunkVal (b : Nat) (l : List Bool) : Nat :=
  bitsVal (l ++ List.replicate (b - l.length) false)

/-- The 16-bit end marker `'1111111111111110'` appended after every
embedded bitstream. -/
def endMarker : List Bool := List.replicate 15 true ++ [false]

/-- `''.join(format(byte, '08b') for byte in data)`: the payload bytes
expanded into a bitstream, most-significant bit first per byte. -/
def bytesToBits (data : List Nat) : List Bool :=
  data.flatMap (natBits 8)

/-- Bitstream-to-bytes conversion used by both extractors: consume 8 bits at
a time, most-significant bit first, discarding a trailing partial byte. -/
def bitsToBytes : List Bool → List Nat
  | b0 :: b1 :: b2 :: b3 :: b4 :: b5 :: b6 :: b7 :: rest =>
      bitsVal [b0, b1, b2, b3, b4, b5, b6, b7] :: bitsToBytes rest
  | _ => []

/-! ### Bit embedder (`_lsb_embed_secure`, `_lsb_random_embed`) -/

/-- `mask = (255 >> bits) << bits`. -/
def mask (b : Nat) : Nat := (255 >>> b) <<< b

/-- One sample write: `(current_val & mask) | int(chunk.ljust(bits,'0'), 2)`. -/
def writeSample (v : Nat) (b : Nat) (chunk : List Bool) : Nat :=
  (v &&& mask b) ||| chunkVal b chunk

/-- The sequential embedding loop of `_lsb_embed_secure`: walk the samples in
index order; stop (`break`) once the bitstream is exhausted; otherwise write
the next `b` bits (the final chunk right-padded with zeros) into the sample's
low bits. -/
def embedLoop (b : Nat) : List Nat → List Bool → List Nat
  | [], _ => []
  | v :: rest, bs =>
    if bs.isEmpty then v :: rest
    else writeSample v b (bs.take b) :: embedLoop b rest (bs.drop b)

/-- `SteganoEngine._lsb_embed_secure`: append the 16-bit end marker to the
data's bitstream, raise `ValueError` (modelled as `Except.error`) when the
required bits exceed `len(flat_img) * bits`, and otherwise run the
sequential embedding loop. The numpy `flatten` copies, so the function
returns a new buffer. -/
def lsb_embed_secure (img : List Nat) (data : List Nat) (b : Nat) :
    Except String (List Nat) :=
  if (bytesToBits data ++ endMarker).length > img.length * b then
    .error "Insufficient capacity"
  else
    .ok (embedLoop b img (bytesToBits data ++ endMarker))

/-- The permuted embedding loop of `_lsb_random_embed`: identical writing
rule, but samples are visited in the order given by the password-derived
permutation `indices`. Note the source performs no capacity check here: the
loop simply stops when either the bitstream or the index list runs out. -/
def randLoop (b : Nat) (img : List Nat) (bs : List Bool) : List Nat → List Nat
  | [] => img
  | idx :: rest =>
    if bs.isEmpty then img
    else randLoop b (img.set idx (writeSample (img.getD idx 0) b (bs.take b)))
      (bs.drop b) rest

/-- `SteganoEngine._lsb_random_embed` with the password-derived permutation
supplied as `indices` (see the module docstring). -/
def lsb_random_embed (img : List Nat) (data : List Nat) (b : Nat)
    (indices : List Nat) : List Nat :=
  randLoop b img (bytesToBits data ++ endMarker) indices

/-! ### Bit extractor (`_lsb_extract_secure`, `_lsb_random_extract`) -/

/-- `pixel & ((1 << bits) - 1)` rendered as a `bits`-character binary string. -/
def lowBits (b : Nat) (v : Nat) : List Bool :=
  natBits b (v &&& (2 ^ b - 1))

/-- The full bitstream read sequentially from a buffer: the low `b` bits of
every sample, in index order. -/
def imageBits (img : List Nat) (b : Nat) : List Bool :=
  img.flatMap (lowBits b)

/-- Index of the first occurrence of the end marker as a contiguous substring
(Python `binary_data.index(end_marker)` guarded by
`end_marker in binary_data`). -/
def firstOcc : List Bool → Option Nat
  | [] => none
  | c :: t =>
    if endMarker.isPrefixOf (c :: t) then some 0
    else (firstOcc t).map (· + 1)

/-- Truncate the bitstream at the start of the first end-marker occurrence;
if the marker does not occur, keep the whole bitstream. -/
def truncAtMarker (s : List Bool) : List Bool :=
  match firstOcc s with
  | some i => s.take i
  | none => s

/-- `SteganoEngine._lsb_extract_secure`. -/
def lsb_extract_secure (img : List Nat) (b : Nat) : List Nat :=
  bitsToBytes (truncAtMarker (imageBits img b))

/-- The slot-filling loop of `_lsb_random_extract`: `binary_data` starts as
`['' for _ in range(len(flat_img))]` and slot `idx` (the *buffer* index, not
the visiting position) receives the low bits of sample `idx`. -/
def fillSlots (b : Nat) (img : List Nat) :
    List (List Bool) → List Nat → List (List Bool)
  | slots, [] => slots
  | slots, idx :: rest =>
    fillSlots b img (slots.set idx (lowBits b (img.getD idx 0))) rest

/-- `SteganoEngine._lsb_random_extract` with the password-derived permutation
supplied as `indices`: fill the index-addressed slots in permutation order,
join them in buffer-index order, then truncate at the marker and convert. -/
def lsb_random_extract (img : List Nat) (b : Nat) (indices : List Nat) :
    List Nat :=
  bitsToBytes (truncAtMarker
    ((fillSlots b img (List.replicate img.length []) indices).flatten))

/-! ### Secure envelope (`_create_secure_header`, `_prepare_data_with_security`) -/

/-- Big-endian byte encoding of width `w` (`struct.pack('>Q', ·)` for `w = 8`,
`struct.pack('>I', ·)` for `w = 4`, applied to values below `256 ^ w`). -/
def packBE : Nat → Nat → List Nat
  | 0, _ => []
  | w + 1, v => (v / 256 ^ w) % 256 :: packBE w v

/-- Big-endian byte decoding (`struct.unpack('>Q', ·)` / `('>I', ·)`). -/
def unpackBE (l : List Nat) : Nat :=
  l.foldl (fun a x => 256 * a + x) 0

/-- The magic tag `b'STEGANO01'`. -/
def magic : List Nat := [83, 84, 69, 71, 65, 78, 79, 48, 49]

/-- `SteganoEngine._create_secure_header`: the fixed-layout header
`magic ‖ timestamp ‖ original_size ‖ processed_size ‖ encrypted ‖ compressed ‖
checksum`, with `checksum = sha256(original_data).digest()[:16]`; `digest`
models `hashlib.sha256(·).digest()` and `timestamp` models `int(time.time())`. -/
def create_secure_header (digest : List Nat → List Nat)
    (original processed : List Nat) (encrypted : Bool) (timestamp : Nat) :
    List Nat :=
  magic ++ packBE 8 timestamp ++ packBE 4 original.length ++
    packBE 4 processed.length ++ [if encrypted then 1 else 0] ++ [1] ++
    (digest original).take 16

/-- `SteganoEngine._prepare_data_with_security`: compress, encrypt when a
password is supplied, and prepend the secure header. -/
def prepare_data_with_security (digest compress : List Nat → List Nat)
    (encrypt : List Nat → String → List Nat) (data : List Nat)
    (password : String) (timestamp : Nat) : List Nat :=
  create_secure_header digest data
    (if password ≠ "" then encrypt (compress data) password
     else compress data) (password ≠ "") timestamp ++
    (if password ≠ "" then encrypt (compress data) password
     else compress data)

/-! ### Engine entry points -/

/-- The engine's technique names `['LSB', 'LSB_RANDOM', 'MULTI_CHANNEL']`;
any technique other than `LSB_RANDOM` dispatches to the sequential path. -/
inductive Technique
  | LSB
  | LSB_RANDOM
  | MULTI_CHANNEL
deriving DecidableEq

/-- `SteganoEngine.embed_data_secure` on an in-memory buffer: validate the
bit depth and non-emptiness of the payload (`_validate_inputs`), frame the
payload (`_prepare_data_with_security`), and dispatch on the technique. -/
def embed_data_secure (digest compress : List Nat → List Nat)
    (encrypt : List Nat → String → List Nat) (img data : List Nat)
    (password : String) (b : Nat) (technique : Technique) (timestamp : Nat)
    (indices : List Nat) : Except String (List Nat) :=
  if ¬ (1 ≤ b ∧ b ≤ 4) then .error "Bits must be between 1 and 4"
  else if data.isEmpty then .error "Data cannot be empty"
  else
    match technique with
    | .LSB_RANDOM =>
        .ok (lsb_random_embed img
          (prepare_data_with_security digest compress encrypt data password
            timestamp) b indices)
    | _ =>
        lsb_embed_secure img
          (prepare_data_with_security digest compress encrypt data password
            timestamp) b

/-- The `extraction_info` dictionaries returned by
`_process_extracted_data`: `{'legacy_mode': True}`,
`{'legacy_mode': True, 'success': True}`, `{'success': False, 'error': e}`,
and the full success record. -/
inductive ExtractInfo
  | legacy
  | legacyOk
  | failed (err : String)
  | secure (timestamp original_size : Nat) (encrypted compressed : Bool)
      (integrityVerified : Bool)
deriving DecidableEq

/-- The header fields read at fixed offsets by `_process_extracted_data`
(Python slices clamp at the end of the list, exactly like `take`/`drop`). -/
structure HeaderFields where
  timestamp : Nat
  original_size : Nat
  processed_size : Nat
  encrypted : Nat
  compressed : Nat
  checksum : List Nat
deriving DecidableEq

/-- Field extraction of `_process_extracted_data` (lines 341-346). -/
def parseHeaderFields (eb : List Nat) : HeaderFields where
  timestamp := unpackBE ((eb.drop 9).take 8)
  original_size := unpackBE ((eb.drop 17).take 4)
  processed_size := unpackBE ((eb.drop 21).take 4)
  encrypted := (eb.drop 25).headD 0
  compressed := (eb.drop 26).headD 0
  checksum := (eb.drop 27).take 16

/-- The decrypt-then-decompress part of the `try` block of
`_process_extracted_data`; an exception raised by `crypto.decrypt` or
`zlib.decompress` is an `Except.error`. Decryption is attempted only when
the header's encrypted flag is set *and* the password is non-empty. -/
def extractionChain (decrypt : List Nat → String → Except String (List Nat))
    (decompress : List Nat → Except String (List Nat))
    (encrypted compressed : Nat) (data_part : List Nat) (password : String) :
    Except String (List Nat) := do
  let d ←
    if encrypted ≠ 0 ∧ password ≠ "" then decrypt data_part password
    else .ok data_part
  if compressed ≠ 0 then decompress d else .ok d

/-- `SteganoEngine._process_extracted_data`: parse the envelope, run the
decrypt/decompress chain, and on any failure fall back to raw decompression
of the untouched extracted bytes, then to returning them verbatim. -/
def process_extracted_data (digest : List Nat → List Nat)
    (decrypt : List Nat → String → Except String (List Nat))
    (decompress : List Nat → Except String (List Nat))
    (eb : List Nat) (password : String) : List Nat × ExtractInfo :=
  if eb.length < 32 then (eb, .legacy)
  else if eb.take 9 ≠ magic then (eb, .legacy)
  else
    match extractionChain decrypt decompress (parseHeaderFields eb).encrypted
        (parseHeaderFields eb).compressed
        ((eb.drop 43).take (parseHeaderFields eb).processed_size)
        password with
    | .ok d =>
        (d, .secure (parseHeaderFields eb).timestamp
          (parseHeaderFields eb).original_size
          ((parseHeaderFields eb).encrypted ≠ 0)
          ((parseHeaderFields eb).compressed ≠ 0)
          (decide ((parseHeaderFields eb).checksum = (digest d).take 16)))
    | .error e =>
        match decompress eb with
        | .ok d2 => (d2, .legacyOk)
        | .error _ => (eb, .failed e)

/-- `SteganoEngine.extract_data_secure` on an in-memory buffer. -/
def extract_data_secure (digest : List Nat → List Nat)
    (decrypt : List Nat → String → Except String (List Nat))
    (decompress : List Nat → Except String (List Nat))
    (img : List Nat) (password : String) (b : Nat) (technique : Technique)
    (indices : List Nat) : List Nat × ExtractInfo :=
  process_extracted_data digest decrypt decompress
    (match technique with
     | .LSB_RANDOM => lsb_random_extract img b indices
     | _ => lsb_extract_secure img b) password

/-- The round trip of §8 of the spec:
`extract(embed(buffer, D, P, b, T), P, b, T)` with the same password, bit
depth and technique on both sides (and hence the same derived permutation
`indices`). -/
def roundTrip (digest compress : List Nat → List Nat)
    (encrypt : List Nat → String → List Nat)
    (decrypt : List Nat → String → Except String (List Nat))
    (decompress : List Nat → Except String (List Nat))
    (img data : List Nat) (password : String) (b : Nat)
    (technique : Technique) (timestamp : Nat) (indices : List Nat) :
    Except String (List Nat) :=
  (embed_data_secure digest compress encrypt img data password b technique
      timestamp indices).map
    (fun stego =>
      (extract_data_secure digest decrypt decompress stego password b
          technique indices).fst)

/-! ### Capacity analyzer (`analyze_capacity`) -/

/-- The two advisory strings of `analyze_capacity`:
`"Use 1-2 bit LSB for better stealth in large images"` and
`"Use 2-4 bit LSB for optimal capacity in small images"`. -/
inductive Advisory
  | stealthLowBits
  | capacityHighBits
deriving DecidableEq

/-- `capacity_bytes = (img_array.size * bit_depth - 256) // 8`, Python floor
division on possibly negative integers. -/
def capacity_bytes (size : Nat) (b : Nat) : Int :=
  Int.fdiv ((size : Int) * b - 256) 8

/-- `SteganoEngine.analyze_capacity` on a `height × width × channels` buffer,
restricted to its computational content: the per-bit-depth capacity table and
the security advisory. The function only reads the buffer. The advisory
threshold in the source is `img_array.shape[0] * img_array.shape[1]`, the
*pixel* count `height * width`. -/
def analyze_capacity (height width channels : Nat) :
    List (Nat × Int) × Advisory :=
  (([1, 2, 3, 4] : List Nat).map
      (fun b => (b, capacity_bytes (height * width * channels) b)),
    if height * width > 1000000 then .stealthLowBits else .capacityHighBits)

/-! ## Arithmetic and bit-string lemmas -/

theorem mod_pow_succ (p w x : Nat) :
    x % p ^ (w + 1) = x % p ^ w + p ^ w * (x / p ^ w % p) := by
  rw [pow_succ, Nat.mod_mul]

theorem length_natBits (w x : Nat) : (natBits w x).length = w := by
  induction w generalizing x with
  | zero => rfl
  | succ w ih => simp [natBits, ih]

theorem bitsVal_foldl (l : List Bool) (a : Nat) :
    l.foldl (fun a c => 2 * a + cond c 1 0) a = a * 2 ^ l.length + bitsVal l := by
  induction l generalizing a with
  | nil => simp [bitsVal]
  | cons c t ih =>
    simp only [List.foldl_cons, List.length_cons, bitsVal]
    rw [ih (2 * a + cond c 1 0), ih (2 * 0 + cond c 1 0)]
    ring

theorem bitsVal_cons (c : Bool) (t : List Bool) :
    bitsVal (c :: t) = cond c 1 0 * 2 ^ t.length + bitsVal t := by
  have h := bitsVal_foldl t (2 * 0 + cond c 1 0)
  have h2 : bitsVal (c :: t) =
      t.foldl (fun a c => 2 * a + cond c 1 0) (2 * 0 + cond c 1 0) := rfl
  rw [h2, h]
  ring

theorem bitsVal_lt (l : List Bool) : bitsVal l < 2 ^ l.length := by
  induction l with
  | nil => simp [bitsVal]
  | cons c t ih =>
    rw [bitsVal_cons, List.length_cons, pow_succ]
    rcases c with _ | _ <;> simp <;> omega

theorem cond_eq_toNat (b : Bool) : cond b 1 0 = b.toNat := by
  cases b <;> rfl

theorem bitsVal_natBits (w x : Nat) : bitsVal (natBits w x) = x % 2 ^ w := by
  induction w generalizing x with
  | zero => simp [natBits, bitsVal, Nat.mod_one]
  | succ w ih =>
    rw [show natBits (w + 1) x = x.testBit w :: natBits w x from rfl,
      bitsVal_cons, length_natBits, ih, mod_pow_succ 2 w x,
      cond_eq_toNat, Nat.toNat_testBit]
    ring

theorem natBits_congr {w x y : Nat} (h : x % 2 ^ w = y % 2 ^ w) :
    natBits w x = natBits w y := by
  induction w generalizing x y with
  | zero => rfl
  | succ w ih =>
    have hbit : x.testBit w = y.testBit w := by
      have hx := Nat.testBit_mod_two_pow x (w + 1) w
      have hy := Nat.testBit_mod_two_pow y (w + 1) w
      rw [h] at hx
      rw [hy] at hx
      simpa [Nat.lt_succ_self] using hx.symm
    have hlow : x % 2 ^ w = y % 2 ^ w := by
      rw [← Nat.mod_mod_of_dvd x (pow_dvd_pow 2 (Nat.le_succ w)),
        ← Nat.mod_mod_of_dvd y (pow_dvd_pow 2 (Nat.le_succ w)), h]
    rw [show natBits (w + 1) x = x.testBit w :: natBits w x from rfl,
      show natBits (w + 1) y = y.testBit w :: natBits w y from rfl,
      hbit, ih hlow]

theorem natBits_bitsVal (l : List Bool) : natBits l.length (bitsVal l) = l := by
  induction l with
  | nil => rfl
  | cons c t ih =>
    have hlt := bitsVal_lt t
    rw [List.length_cons, bitsVal_cons,
      show natBits (t.length + 1) (cond c 1 0 * 2 ^ t.length + bitsVal t) =
        (cond c 1 0 * 2 ^ t.length + bitsVal t).testBit t.length ::
          natBits t.length (cond c 1 0 * 2 ^ t.length + bitsVal t) from rfl]
    have hdiv : (cond c 1 0 * 2 ^ t.length + bitsVal t) / 2 ^ t.length =
        cond c 1 0 := by
      rw [Nat.mul_comm (cond c 1 0),
        Nat.mul_add_div (Nat.pos_pow_of_pos _ (by omega)),
        Nat.div_eq_of_lt hlt, Nat.add_zero]
    have hbit : (cond c 1 0 * 2 ^ t.length + bitsVal t).testBit t.length = c := by
      rw [Nat.testBit_to_div_mod, hdiv]
      cases c <;> simp
    have htail : natBits t.length (cond c 1 0 * 2 ^ t.length + bitsVal t) =
        natBits t.length (bitsVal t) := by
      apply natBits_congr
      rw [Nat.add_comm, Nat.add_mul_mod_self_right]
    rw [hbit, htail, ih]

theorem length_packBE (w v : Nat) : (packBE w v).length = w := by
  induction w generalizing v with
  | zero => rfl
  | succ w ih => simp [packBE, ih]

theorem packBE_lt (w v : Nat) : ∀ y ∈ packBE w v, y < 256 := by
  induction w generalizing v with
  | zero => intro y hy; simp [packBE] at hy
  | succ w ih =>
    intro y hy
    rw [show packBE (w + 1) v = (v / 256 ^ w) % 256 :: packBE w v from rfl,
      List.mem_cons] at hy
    rcases hy with rfl | hy
    · exact Nat.mod_lt _ (by omega)
    · exact ih v y hy

theorem unpackBE_foldl (w v a : Nat) :
    (packBE w v).foldl (fun a x => 256 * a + x) a = a * 256 ^ w + v % 256 ^ w := by
  induction w generalizing a with
  | zero => simp [packBE, unpackBE, Nat.mod_one]
  | succ w ih =>
    rw [show packBE (w + 1) v = (v / 256 ^ w) % 256 :: packBE w v from rfl,
      List.foldl_cons, ih, mod_pow_succ 256 w v]
    ring

theorem unpackBE_packBE {w v : Nat} (h : v < 256 ^ w) :
    unpackBE (packBE w v) = v := by
  have := unpackBE_foldl w v 0
  rw [unpackBE, this, Nat.mod_eq_of_lt h]
  omega

/-! ## Sample-write lemmas -/

theorem testBit_mask (b i : Nat) :
    (mask b).testBit i = (decide (b ≤ i) && decide (i < 8)) := by
  simp only [mask, Nat.testBit_shiftLeft, Nat.testBit_shiftRight, ge_iff_le]
  have h255 : ∀ k, Nat.testBit 255 k = decide (k < 8) := by
    intro k
    rw [show (255 : Nat) = 2 ^ 8 - 1 from by norm_num,
      Nat.testBit_two_pow_sub_one]
  by_cases h : b ≤ i
  · simp [h, Nat.add_sub_cancel' h, h255]
  · simp [h]

theorem chunkVal_lt {b : Nat} (l : List Bool) (h : l.length ≤ b) :
    chunkVal b l < 2 ^ b := by
  have h2 := bitsVal_lt (l ++ List.replicate (b - l.length) false)
  simpa [chunkVal, List.length_append, List.length_replicate,
    Nat.add_sub_cancel' h] using h2

theorem writeSample_mod (v : Nat) {b : Nat} (chunk : List Bool)
    (h : chunk.length ≤ b) :
    writeSample v b chunk % 2 ^ b = chunkVal b chunk := by
  have hc := chunkVal_lt chunk h
  apply Nat.eq_of_testBit_eq
  intro i
  rw [Nat.testBit_mod_two_pow]
  simp only [writeSample, Nat.testBit_lor, Nat.testBit_land, testBit_mask]
  by_cases hi : i < b
  · simp [hi, show ¬ (b ≤ i) from by omega]
  · have h2 : (chunkVal b chunk).testBit i = false :=
      Nat.testBit_lt_two_pow
        (lt_of_lt_of_le hc (Nat.pow_le_pow_right (by omega) (by omega)))
    simp [hi, h2]

theorem writeSample_div (v : Nat) {b : Nat} (chunk : List Bool)
    (hv : v < 256) (hlen : chunk.length ≤ b) :
    writeSample v b chunk / 2 ^ b = v / 2 ^ b := by
  have hc := chunkVal_lt chunk hlen
  rw [← Nat.shiftRight_eq_div_pow, ← Nat.shiftRight_eq_div_pow]
  apply Nat.eq_of_testBit_eq
  intro i
  simp only [Nat.testBit_shiftRight]
  simp only [writeSample, Nat.testBit_lor, Nat.testBit_land, testBit_mask]
  have hcbit : (chunkVal b chunk).testBit (b + i) = false :=
    Nat.testBit_lt_two_pow
      (lt_of_lt_of_le hc (Nat.pow_le_pow_right (by omega) (by omega)))
  by_cases hi : b + i < 8
  · simp [hcbit, show b ≤ b + i from Nat.le_add_right b i, hi]
  · have hvbit : v.testBit (b + i) = false :=
      Nat.testBit_lt_two_pow (lt_of_lt_of_le hv (by
        rw [show (256 : Nat) = 2 ^ 8 by norm_num]
        exact Nat.pow_le_pow_right (by omega) (by omega)))
    simp [hvbit, hcbit, hi]

theorem length_lowBits (b v : Nat) : (lowBits b v).length = b :=
  length_natBits b _

theorem lowBits_writeSample (v : Nat) {b : Nat} (chunk : List Bool)
    (h : chunk.length ≤ b) :
    lowBits b (writeSample v b chunk) =
      chunk ++ List.replicate (b - chunk.length) false := by
  have hlen : (chunk ++ List.replicate (b - chunk.length) false).length = b := by
    simp [Nat.add_sub_cancel' h]
  rw [lowBits, Nat.and_pow_two_sub_one_eq_mod, writeSample_mod v chunk h,
    chunkVal]
  calc natBits b (bitsVal (chunk ++ List.replicate (b - chunk.length) false))
      = natBits (chunk ++ List.replicate (b - chunk.length) false).length
          (bitsVal (chunk ++ List.replicate (b - chunk.length) false)) := by
        rw [hlen]
    _ = chunk ++ List.replicate (b - chunk.length) false := natBits_bitsVal _

/-! ## Byte-conversion lemmas -/

theorem bitsToBytes_append8 (l rest : List Bool) (h : l.length = 8) :
    bitsToBytes (l ++ rest) = bitsVal l :: bitsToBytes rest := by
  rcases l with _ | ⟨b0, l⟩; · simp at h
  rcases l with _ | ⟨b1, l⟩; · simp at h
  rcases l with _ | ⟨b2, l⟩; · simp at h
  rcases l with _ | ⟨b3, l⟩; · simp at h
  rcases l with _ | ⟨b4, l⟩; · simp at h
  rcases l with _ | ⟨b5, l⟩; · simp at h
  rcases l with _ | ⟨b6, l⟩; · simp at h
  rcases l with _ | ⟨b7, l⟩; · simp at h
  rcases l with _ | ⟨b8, l⟩
  · rfl
  · simp at h

theorem bitsToBytes_bytesToBits {data : List Nat} (h : ∀ y ∈ data, y < 256) :
    bitsToBytes (bytesToBits data) = data := by
  induction data with
  | nil => rfl
  | cons x t ih =>
    rw [bytesToBits, List.flatMap_cons, ← bytesToBits,
      bitsToBytes_append8 _ _ (length_natBits 8 x), bitsVal_natBits,
      Nat.mod_eq_of_lt (by
        rw [show (2 : Nat) ^ 8 = 256 by norm_num]
        exact h x (List.mem_cons_self x t)),
      ih (fun y hy => h y (List.mem_cons_of_mem x hy))]

/-! ## Marker-search lemmas -/

theorem isPrefixOf_self (l : List Bool) : l.isPrefixOf l = true := by
  induction l with
  | nil => rfl
  | cons c t ih => simp [List.isPrefixOf, ih]

theorem isPrefixOf_append_indep :
    ∀ (p A B : List Bool), p.length ≤ A.length →
      p.isPrefixOf (A ++ B) = p.isPrefixOf A
  | [], A, B, _ => by simp [List.isPrefixOf]
  | a :: p, [], B, h => by simp at h
  | a :: p, x :: A, B, h => by
    show (a == x && p.isPrefixOf (A ++ B)) = (a == x && p.isPrefixOf A)
    rw [isPrefixOf_append_indep p A B (by simpa using h)]

theorem endMarker_length : endMarker.length = 16 := by decide

theorem firstOcc_eq_some_iff : ∀ {s : List Bool} {i : Nat},
    firstOcc s = some i ↔
      (endMarker.isPrefixOf (s.drop i) = true ∧
        ∀ j, j < i → endMarker.isPrefixOf (s.drop j) = false) := by
  intro s
  induction s with
  | nil =>
    intro i
    constructor
    · intro h; simp [firstOcc] at h
    · rintro ⟨h1, -⟩
      rw [List.drop_nil] at h1
      simp [show endMarker.isPrefixOf [] = false from by decide] at h1
  | cons c t ih =>
    intro i
    rw [show firstOcc (c :: t) =
      (if endMarker.isPrefixOf (c :: t) then some 0
       else (firstOcc t).map (· + 1)) from rfl]
    by_cases hp : endMarker.isPrefixOf (c :: t) = true
    · rw [if_pos hp]
      constructor
      · intro h
        injection h with h
        subst h
        exact ⟨by simpa using hp, by omega⟩
      · rintro ⟨h1, h2⟩
        cases i with
        | zero => rfl
        | succ k =>
          have h0 := h2 0 (by omega)
          rw [List.drop_zero, hp] at h0
          cases h0
    · have hp' : endMarker.isPrefixOf (c :: t) = false :=
        Bool.eq_false_iff.mpr hp
      rw [if_neg hp]
      cases i with
      | zero =>
        constructor
        · intro h
          rcases hf : firstOcc t with _ | k <;> rw [hf] at h <;> simp at h
        · rintro ⟨h1, -⟩
          rw [List.drop_zero, hp'] at h1
          cases h1
      | succ k =>
        have hmap : ((firstOcc t).map (· + 1) = some (k + 1)) ↔
            firstOcc t = some k := by
          rcases hf : firstOcc t with _ | m <;> simp
        rw [hmap, ih]
        constructor
        · rintro ⟨h1, h2⟩
          refine ⟨by simpa using h1, ?_⟩
          intro j hj
          cases j with
          | zero => simpa using hp'
          | succ m =>
            rw [List.drop_succ_cons]
            exact h2 m (by omega)
        · rintro ⟨h1, h2⟩
          refine ⟨by simpa using h1, ?_⟩
          intro j hj
          have := h2 (j + 1) (by omega)
          rw [List.drop_succ_cons] at this
          exact this

theorem firstOcc_eq_none_iff : ∀ {s : List Bool},
    firstOcc s = none ↔ ∀ j, endMarker.isPrefixOf (s.drop j) = false := by
  intro s
  induction s with
  | nil =>
    constructor
    · intro _ j
      rw [List.drop_nil]
      decide
    · intro _; rfl
  | cons c t ih =>
    rw [show firstOcc (c :: t) =
      (if endMarker.isPrefixOf (c :: t) then some 0
       else (firstOcc t).map (· + 1)) from rfl]
    by_cases hp : endMarker.isPrefixOf (c :: t) = true
    · rw [if_pos hp]
      constructor
      · intro h; cases h
      · intro h
        have h0 := h 0
        rw [List.drop_zero, hp] at h0
        cases h0
    · have hp' : endMarker.isPrefixOf (c :: t) = false :=
        Bool.eq_false_iff.mpr hp
      rw [if_neg hp]
      constructor
      · intro h j
        have ht : firstOcc t = none := by
          rcases hf : firstOcc t with _ | m
          · rfl
          · rw [hf] at h; simp at h
        cases j with
        | zero => simpa using hp'
        | succ m =>
          rw [List.drop_succ_cons]
          exact ih.mp ht m
      · intro h
        have ht : firstOcc t = none := by
          rw [ih]
          intro j
          have := h (j + 1)
          rwa [List.drop_succ_cons] at this
        rw [ht]
        rfl

/-- If the bitstream `A` followed by the end marker contains no occurrence of
the marker before position `A.length`, then appending anything after the
marker still makes `A.length` the first occurrence. -/
theorem firstOcc_append_marker (A B : List Bool)
    (h : firstOcc (A ++ endMarker) = some A.length) :
    firstOcc (A ++ (endMarker ++ B)) = some A.length := by
  rw [firstOcc_eq_some_iff] at h ⊢
  obtain ⟨-, h2⟩ := h
  constructor
  · rw [List.drop_left,
      isPrefixOf_append_indep endMarker endMarker B (le_refl _)]
    exact isPrefixOf_self endMarker
  · intro j hj
    have hd : (A ++ (endMarker ++ B)).drop j = (A ++ endMarker).drop j ++ B := by
      rw [← List.append_assoc, List.drop_append_eq_append_drop,
        show j - (A ++ endMarker).length = 0 from by
          rw [List.length_append, endMarker_length]; omega,
        List.drop_zero]
    rw [hd, isPrefixOf_append_indep _ _ _ (by
      rw [List.length_drop, List.length_append, endMarker_length]
      omega)]
    exact h2 j hj

/-! ## Ceiling-division helpers -/

theorem ceil_mul_ge (L b : Nat) (hb : 1 ≤ b) : L ≤ (L + b - 1) / b * b := by
  have h := Nat.lt_div_mul_add (a := L + b - 1) (show 0 < b by omega)
  generalize (L + b - 1) / b * b = t at h ⊢
  omega

theorem ceil_succ {L b : Nat} (hb : 1 ≤ b) (h : b ≤ L) :
    (L + b - 1) / b = (L - b + b - 1) / b + 1 := by
  rw [show L + b - 1 = (L - b + b - 1) + b from by omega, Nat.add_div_right]
  omega

theorem ceil_eq_one {L b : Nat} (h1 : 1 ≤ L) (h2 : L ≤ b) :
    (L + b - 1) / b = 1 :=
  Nat.div_eq_of_lt_le (by omega) (by omega)

theorem lt_ceil_iff {L b i : Nat} (hb : 1 ≤ b) :
    i * b < L ↔ i < (L + b - 1) / b := by
  constructor
  · intro h
    by_contra hc
    have h2 : (L + b - 1) / b ≤ i := by omega
    have h3 : (L + b - 1) / b * b ≤ i * b := Nat.mul_le_mul_right b h2
    have h4 := ceil_mul_ge L b hb
    omega
  · intro h
    have h2 : i + 1 ≤ (L + b - 1) / b := h
    have h3 : (i + 1) * b ≤ (L + b - 1) / b * b := Nat.mul_le_mul_right b h2
    have h4 : (L + b - 1) / b * b ≤ L + b - 1 := Nat.div_mul_le_self _ _
    have h5 : (i + 1) * b = i * b + b := Nat.succ_mul i b
    omega

/-! ## Embedding-loop lemmas -/

theorem embedLoop_nil (b : Nat) (img : List Nat) : embedLoop b img [] = img := by
  cases img <;> rfl

theorem length_embedLoop (b : Nat) :
    ∀ (img : List Nat) (bs : List Bool),
      (embedLoop b img bs).length = img.length
  | [], _ => rfl
  | v :: rest, bs => by
    rw [embedLoop]
    by_cases h : bs.isEmpty
    · rw [if_pos h]
    · rw [if_neg h]
      simp [length_embedLoop b rest (bs.drop b)]

theorem embedLoop_getD (b : Nat) (hb : 1 ≤ b) :
    ∀ (img : List Nat) (bs : List Bool) (i : Nat), i < img.length →
      (embedLoop b img bs).getD i 0 =
        if i * b < bs.length then
          writeSample (img.getD i 0) b ((bs.drop (i * b)).take b)
        else img.getD i 0 := by
  intro img
  induction img with
  | nil => intro bs i hi; simp at hi
  | cons v rest ih =>
    intro bs i hi
    rcases bs with _ | ⟨c, bs0⟩
    · rw [embedLoop_nil]
      simp
    · rw [show embedLoop b (v :: rest) (c :: bs0) =
          writeSample v b ((c :: bs0).take b) ::
            embedLoop b rest ((c :: bs0).drop b) from by
        rw [embedLoop, if_neg (by simp)]]
      cases i with
      | zero =>
        rw [List.getD_cons_zero, List.getD_cons_zero,
          if_pos (by simp [Nat.zero_mul]), Nat.zero_mul, List.drop_zero]
      | succ k =>
        rw [List.getD_cons_succ, List.getD_cons_succ,
          ih ((c :: bs0).drop b) k (by simpa using hi), List.drop_drop]
        have hsm : (k + 1) * b = k * b + b := Nat.succ_mul k b
        have hlen : ((c :: bs0).drop b).length = (c :: bs0).length - b :=
          List.length_drop b _
        refine if_congr ?_ ?_ rfl
        · rw [hlen, hsm]
          generalize k * b = t
          omega
        · rw [show b + k * b = (k + 1) * b from by omega]

theorem imageBits_append (l1 l2 : List Nat) (b : Nat) :
    imageBits (l1 ++ l2) b = imageBits l1 b ++ imageBits l2 b := by
  simp [imageBits]

theorem length_imageBits (img : List Nat) (b : Nat) :
    (imageBits img b).length = img.length * b := by
  induction img with
  | nil => simp [imageBits]
  | cons v rest ih =>
    rw [imageBits, List.flatMap_cons, List.length_append, ← imageBits, ih,
      length_lowBits, List.length_cons]
    ring

theorem length_bytesToBits (data : List Nat) :
    (bytesToBits data).length = 8 * data.length := by
  induction data with
  | nil => rfl
  | cons x t ih =>
    rw [bytesToBits, List.flatMap_cons, List.length_append, ← bytesToBits, ih,
      length_natBits, List.length_cons]
    ring

/-- The image bitstream of a sequentially embedded buffer: the embedded
bitstream, zero padding to the next sample boundary, then the untouched
samples' low bits. -/
theorem append_split_assoc {α : Type} {T D rep I X : List α} (h : T ++ D = X) :
    T ++ ((D ++ rep) ++ I) = (X ++ rep) ++ I := by
  rw [← h]
  simp [List.append_assoc]

/-- The image bitstream of a sequentially embedded buffer: the embedded
bitstream, zero padding to the next sample boundary, then the untouched
samples' low bits. -/
theorem imageBits_embedLoop (b : Nat) (hb : 1 ≤ b) :
    ∀ (img : List Nat) (bs : List Bool), bs.length ≤ img.length * b →
      imageBits (embedLoop b img bs) b =
        bs ++ List.replicate ((bs.length + b - 1) / b * b - bs.length) false ++
          imageBits (img.drop ((bs.length + b - 1) / b)) b := by
  intro img
  induction img with
  | nil =>
    intro bs hcap
    have hbs : bs = [] := by
      have h0 : bs.length = 0 := by
        simp only [List.length_nil, Nat.zero_mul, Nat.le_zero] at hcap
        exact hcap
      exact List.length_eq_zero.mp h0
    subst hbs
    have hz : (b - 1) / b = 0 := Nat.div_eq_of_lt (by omega)
    simp [embedLoop, imageBits, hz]
  | cons v rest ih =>
    intro bs hcap
    rcases bs with _ | ⟨c, bs0⟩
    · rw [embedLoop_nil]
      have hz : (b - 1) / b = 0 := Nat.div_eq_of_lt (by omega)
      simp [hz]
    · rw [show embedLoop b (v :: rest) (c :: bs0) =
          writeSample v b ((c :: bs0).take b) ::
            embedLoop b rest ((c :: bs0).drop b) from by
        rw [embedLoop, if_neg (by simp)],
        imageBits, List.flatMap_cons, ← imageBits]
      by_cases hlen : b ≤ (c :: bs0).length
      · have htake : ((c :: bs0).take b).length = b := by
          rw [List.length_take]
          omega
        have hcap2 : ((c :: bs0).drop b).length ≤ rest.length * b := by
          rw [List.length_drop]
          have h1 : (rest.length + 1) * b = rest.length * b + b := by
            rw [Nat.succ_mul]
          simp only [List.length_cons] at hcap ⊢
          omega
        rw [lowBits_writeSample v _ (le_of_eq htake), htake, Nat.sub_self,
          List.replicate_zero, List.append_nil, ih _ hcap2]
        have hmain : ((c :: bs0).length + b - 1) / b =
            (((c :: bs0).drop b).length + b - 1) / b + 1 := by
          rw [List.length_drop]
          exact ceil_succ hb hlen
        have hpad : ((((c :: bs0).drop b).length + b - 1) / b + 1) * b -
              (c :: bs0).length =
            (((c :: bs0).drop b).length + b - 1) / b * b -
              ((c :: bs0).drop b).length := by
          rw [List.length_drop, Nat.succ_mul]
          have hge := ceil_mul_ge ((c :: bs0).length - b) b hb
          generalize ((c :: bs0).length - b + b - 1) / b * b = t at hge ⊢
          omega
        rw [hmain, hpad, List.drop_succ_cons]
        exact append_split_assoc (List.take_append_drop b (c :: bs0))
      · push_neg at hlen
        have htake : (c :: bs0).take b = c :: bs0 :=
          List.take_of_length_le (by omega)
        have hdrop : (c :: bs0).drop b = [] :=
          List.drop_eq_nil_of_le (by omega)
        rw [htake, hdrop, embedLoop_nil,
          lowBits_writeSample v _ (by omega),
          ceil_eq_one (by simp) (by omega), Nat.one_mul,
          show ((v :: rest) : List Nat).drop 1 = rest from rfl]

theorem truncAtMarker_eq_take {s : List Bool} {i : Nat}
    (h : firstOcc s = some i) : truncAtMarker s = s.take i := by
  simp [truncAtMarker, h]

theorem truncAtMarker_eq_self {s : List Bool}
    (h : firstOcc s = none) : truncAtMarker s = s := by
  simp [truncAtMarker, h]

/-- Core sequential round trip at the bit level: embedding a framed byte
string whose bitstream has its first end-marker occurrence only at the
appended marker itself, into a buffer with sufficient capacity, and
extracting sequentially, returns exactly the framed bytes. -/
theorem extract_embedLoop (img data : List Nat) (b : Nat) (hb : 1 ≤ b)
    (hcap : (bytesToBits data ++ endMarker).length ≤ img.length * b)
    (hbytes : ∀ y ∈ data, y < 256)
    (hfree : firstOcc (bytesToBits data ++ endMarker) =
      some (bytesToBits data).length) :
    lsb_extract_secure (embedLoop b img (bytesToBits data ++ endMarker)) b =
      data := by
  rw [lsb_extract_secure, imageBits_embedLoop b hb img _ hcap]
  simp only [List.append_assoc]
  rw [truncAtMarker_eq_take (firstOcc_append_marker (bytesToBits data) _ hfree),
    List.take_left, bitsToBytes_bytesToBits hbytes]

/-! ## Permuted-embedding lemmas -/

theorem length_randLoop (b : Nat) :
    ∀ (indices : List Nat) (img : List Nat) (bs : List Bool),
      (randLoop b img bs indices).length = img.length
  | [], _, _ => rfl
  | idx :: rest, img, bs => by
    rw [randLoop]
    by_cases h : bs.isEmpty
    · rw [if_pos h]
    · rw [if_neg h, length_randLoop b rest _ _, List.length_set]

theorem randLoop_getD_notMem (b : Nat) :
    ∀ (indices : List Nat) (img : List Nat) (bs : List Bool) (j : Nat),
      j ∉ indices → (randLoop b img bs indices).getD j 0 = img.getD j 0
  | [], _, _, _, _ => rfl
  | idx :: rest, img, bs, j, hj => by
    rw [randLoop]
    by_cases h : bs.isEmpty
    · rw [if_pos h]
    · rw [if_neg h,
        randLoop_getD_notMem b rest _ _ j
          (fun hm => hj (List.mem_cons_of_mem _ hm)),
        List.getD_eq_getElem?_getD, List.getElem?_set_ne
          (fun he => hj (by rw [← he]; exact List.mem_cons_self idx rest))]
      exact (List.getD_eq_getElem?_getD img j 0).symm

theorem randLoop_getD (b : Nat) (hb : 1 ≤ b) :
    ∀ (indices : List Nat) (img : List Nat) (bs : List Bool) (k : Nat),
      indices.Nodup → (∀ i ∈ indices, i < img.length) →
      k < indices.length → k * b < bs.length →
      (randLoop b img bs indices).getD (indices.getD k 0) 0 =
        writeSample (img.getD (indices.getD k 0) 0) b
          ((bs.drop (k * b)).take b)
  | [], _, _, k, _, _, hk, _ => by simp at hk
  | idx :: rest, img, bs, k, hnd, hbound, hk, hkb => by
    have hbsne : bs.isEmpty = false := by
      rcases bs with _ | ⟨c, t⟩
      · simp at hkb
      · rfl
    rw [randLoop, if_neg (by simp [hbsne])]
    have hidxlt : idx < img.length := hbound idx (List.mem_cons_self idx rest)
    cases k with
    | zero =>
      rw [List.getD_cons_zero,
        randLoop_getD_notMem b rest _ _ idx (List.nodup_cons.mp hnd).1,
        Nat.zero_mul, List.drop_zero]
      rw [List.getD_eq_getElem?_getD, List.getElem?_set_eq hidxlt]
      rfl
    | succ k =>
      rw [List.getD_cons_succ]
      have hklt : k < rest.length := by simpa using hk
      have hmem : rest.getD k 0 ∈ rest := by
        rw [List.getD_eq_getElem _ _ hklt]
        exact List.getElem_mem _
      have hne : idx ≠ rest.getD k 0 :=
        fun he => (List.nodup_cons.mp hnd).1 (he ▸ hmem)
      have hsm : (k + 1) * b = k * b + b := Nat.succ_mul k b
      rw [randLoop_getD b hb rest _ _ k (List.nodup_cons.mp hnd).2
        (fun i hi => by
          rw [List.length_set]
          exact hbound i (List.mem_cons_of_mem _ hi))
        hklt
        (by rw [List.length_drop]; omega)]
      rw [List.drop_drop, show b + k * b = (k + 1) * b from by omega]
      rw [List.getD_eq_getElem?_getD (img.set idx _),
        List.getElem?_set_ne hne, ← List.getD_eq_getElem?_getD]

/-! ## Chunk-injectivity lemmas -/

theorem chunkVal_inj {b : Nat} {c1 c2 : List Bool}
    (h1 : c1.length ≤ b) (h2 : c2.length ≤ b) (hlen : c1.length = c2.length)
    (h : chunkVal b c1 = chunkVal b c2) : c1 = c2 := by
  have e1 := natBits_bitsVal (c1 ++ List.replicate (b - c1.length) false)
  have e2 := natBits_bitsVal (c2 ++ List.replicate (b - c2.length) false)
  have hl1 : (c1 ++ List.replicate (b - c1.length) false).length = b := by
    simp [Nat.add_sub_cancel' h1]
  have hl2 : (c2 ++ List.replicate (b - c2.length) false).length = b := by
    simp [Nat.add_sub_cancel' h2]
  rw [hl1] at e1
  rw [hl2] at e2
  have hp : c1 ++ List.replicate (b - c1.length) false =
      c2 ++ List.replicate (b - c2.length) false := by
    rw [← e1, ← e2, ← chunkVal, ← chunkVal, h]
  have := congrArg (List.take c1.length) hp
  rwa [List.take_left, hlen, List.take_left] at this

theorem writeSample_inj {v b : Nat} {c1 c2 : List Bool}
    (h1 : c1.length ≤ b) (h2 : c2.length ≤ b) (hlen : c1.length = c2.length)
    (h : writeSample v b c1 = writeSample v b c2) : c1 = c2 := by
  apply chunkVal_inj h1 h2 hlen
  have hm := congrArg (· % 2 ^ b) h
  simp only at hm
  rwa [writeSample_mod v c1 h1, writeSample_mod v c2 h2] at hm

/-- A list is determined by its `b`-sized chunks. -/
theorem eq_of_chunks_eq {b : Nat} (hb : 1 ≤ b) (s1 s2 : List Bool)
    (hlen : s1.length = s2.length)
    (h : ∀ k, (s1.drop (k * b)).take b = (s2.drop (k * b)).take b) :
    s1 = s2 := by
  apply List.ext_getElem?
  intro i
  rcases Nat.lt_or_ge i s1.length with hi | hi
  · have hk := congrArg (fun l => l[i % b]?) (h (i / b))
    simp only at hk
    have hmod : i % b < b := Nat.mod_lt _ (by omega)
    have hdm := Nat.div_add_mod' i b
    rw [List.getElem?_take_of_lt hmod, List.getElem?_take_of_lt hmod,
      List.getElem?_drop, List.getElem?_drop, hdm] at hk
    exact hk
  · rw [List.getElem?_eq_none (by omega), List.getElem?_eq_none (by omega)]

/-! ## Permuted-extraction lemmas -/

theorem length_fillSlots (b : Nat) (img : List Nat) :
    ∀ (indices : List Nat) (slots : List (List Bool)),
      (fillSlots b img slots indices).length = slots.length
  | [], _ => rfl
  | idx :: rest, slots => by
    rw [fillSlots, length_fillSlots b img rest _, List.length_set]

theorem fillSlots_getD (b : Nat) (img : List Nat) :
    ∀ (indices : List Nat) (slots : List (List Bool)) (j : Nat),
      (fillSlots b img slots indices).getD j [] =
        if j ∈ indices ∧ j < slots.length then lowBits b (img.getD j 0)
        else slots.getD j []
  | [], slots, j => by simp [fillSlots]
  | idx :: rest, slots, j => by
    rw [fillSlots, fillSlots_getD b img rest _ j]
    by_cases hmem : j ∈ rest
    · by_cases hj : j < slots.length
      · rw [if_pos ⟨hmem, by rw [List.length_set]; exact hj⟩,
          if_pos ⟨List.mem_cons_of_mem _ hmem, hj⟩]
      · rw [if_neg (fun hc => hj (by
            rw [List.length_set] at hc; exact hc.2)),
          if_neg (fun hc => hj hc.2),
          List.getD_eq_default _ _ (by rw [List.length_set]; omega),
          List.getD_eq_default _ _ (by omega)]
    · by_cases hj : j = idx
      · subst hj
        rw [if_neg (fun hc => hmem hc.1)]
        by_cases hlt : j < slots.length
        · rw [if_pos ⟨List.mem_cons_self j rest, hlt⟩,
            List.getD_eq_getElem?_getD, List.getElem?_set_eq hlt]
          rfl
        · rw [if_neg (fun hc => hlt hc.2),
            List.getD_eq_default _ _ (by rw [List.length_set]; omega),
            List.getD_eq_default _ _ (by omega)]
      · rw [if_neg (fun hc => hmem hc.1),
          if_neg (fun hc => by
            rcases List.mem_cons.mp hc.1 with h | h
            · exact hj h
            · exact hmem h),
          List.getD_eq_getElem?_getD, List.getElem?_set_ne (Ne.symm hj),
          ← List.getD_eq_getElem?_getD]

theorem fillSlots_eq_map (b : Nat) (img : List Nat) (indices : List Nat)
    (hperm : indices.Perm (List.range img.length)) :
    fillSlots b img (List.replicate img.length []) indices =
      img.map (lowBits b) := by
  apply List.ext_getElem?
  intro j
  have hlen : (fillSlots b img (List.replicate img.length []) indices).length =
      img.length := by
    rw [length_fillSlots, List.length_replicate]
  rcases Nat.lt_or_ge j img.length with hj | hj
  · have hmem : j ∈ indices := hperm.mem_iff.mpr (List.mem_range.mpr hj)
    have hD := fillSlots_getD b img indices (List.replicate img.length []) j
    rw [if_pos ⟨hmem, by rw [List.length_replicate]; exact hj⟩] at hD
    have hsome : (fillSlots b img (List.replicate img.length []) indices)[j]? =
        some (lowBits b (img.getD j 0)) := by
      rw [List.getElem?_eq_getElem (by rw [hlen]; exact hj)]
      congr 1
      rw [← List.getD_eq_getElem _ [] (by rw [hlen]; exact hj), hD]
    rw [hsome, List.getElem?_map, List.getElem?_eq_getElem hj]
    show some (lowBits b (img.getD j 0)) = some (lowBits b (img.get ⟨j, hj⟩))
    rw [List.getD_eq_getElem img 0 hj]
    rfl
  · rw [List.getElem?_eq_none (by omega),
      List.getElem?_eq_none (by rw [List.length_map]; omega)]

/-- The permuted extractor joins the slots in buffer-index order, so over a
full permutation of the indices the joined bitstream is exactly the
sequential bitstream. -/
theorem fillSlots_flatten (b : Nat) (img : List Nat) (indices : List Nat)
    (hperm : indices.Perm (List.range img.length)) :
    (fillSlots b img (List.replicate img.length []) indices).flatten =
      imageBits img b := by
  rw [fillSlots_eq_map b img indices hperm, imageBits, List.flatMap_def]

/-! ## Envelope-parsing lemmas -/

theorem length_create_secure_header (digest : List Nat → List Nat)
    (od pd : List Nat) (enc : Bool) (t : Nat)
    (hdig : 16 ≤ (digest od).length) :
    (create_secure_header digest od pd enc t).length = 43 := by
  simp [create_secure_header, magic, length_packBE, List.length_take]
  omega

theorem take9_create_secure_header (digest : List Nat → List Nat)
    (od pd : List Nat) (enc : Bool) (t : Nat) (rest : List Nat) :
    (create_secure_header digest od pd enc t ++ rest).take 9 = magic := by
  simp only [create_secure_header, List.append_assoc]
  exact List.take_left' rfl

/-- Parsing at the fixed offsets recovers every field packed by
`_create_secure_header`, for any trailing payload. -/
theorem parse_create_header (digest : List Nat → List Nat)
    (od pd : List Nat) (enc : Bool) (t : Nat) (rest : List Nat)
    (hod : od.length < 2 ^ 32) (hpd : pd.length < 2 ^ 32) (ht : t < 2 ^ 64)
    (hdig : 16 ≤ (digest od).length) :
    parseHeaderFields (create_secure_header digest od pd enc t ++ rest) =
      ⟨t, od.length, pd.length, if enc then 1 else 0, 1,
        (digest od).take 16⟩ := by
  have h9 : (create_secure_header digest od pd enc t ++ rest).drop 9 =
      packBE 8 t ++ (packBE 4 od.length ++ (packBE 4 pd.length ++
        ([if enc then 1 else 0] ++ ([1] ++ ((digest od).take 16 ++ rest))))) := by
    simp only [create_secure_header, List.append_assoc]
    exact List.drop_left' rfl
  have h17 : (create_secure_header digest od pd enc t ++ rest).drop 17 =
      packBE 4 od.length ++ (packBE 4 pd.length ++
        ([if enc then 1 else 0] ++ ([1] ++ ((digest od).take 16 ++ rest)))) := by
    rw [show (17 : Nat) = 9 + 8 from rfl, ← List.drop_drop, h9]
    exact List.drop_left' (length_packBE 8 t)
  have h21 : (create_secure_header digest od pd enc t ++ rest).drop 21 =
      packBE 4 pd.length ++
        ([if enc then 1 else 0] ++ ([1] ++ ((digest od).take 16 ++ rest))) := by
    rw [show (21 : Nat) = 17 + 4 from rfl, ← List.drop_drop, h17]
    exact List.drop_left' (length_packBE 4 od.length)
  have h25 : (create_secure_header digest od pd enc t ++ rest).drop 25 =
      [if enc then 1 else 0] ++ ([1] ++ ((digest od).take 16 ++ rest)) := by
    rw [show (25 : Nat) = 21 + 4 from rfl, ← List.drop_drop, h21]
    exact List.drop_left' (length_packBE 4 pd.length)
  have h26 : (create_secure_header digest od pd enc t ++ rest).drop 26 =
      [1] ++ ((digest od).take 16 ++ rest) := by
    rw [show (26 : Nat) = 25 + 1 from rfl, ← List.drop_drop, h25]
    exact List.drop_left' rfl
  have h27 : (create_secure_header digest od pd enc t ++ rest).drop 27 =
      (digest od).take 16 ++ rest := by
    rw [show (27 : Nat) = 26 + 1 from rfl, ← List.drop_drop, h26]
    exact List.drop_left' rfl
  have h256_8 : (256 : Nat) ^ 8 = 2 ^ 64 := by norm_num
  have h256_4 : (256 : Nat) ^ 4 = 2 ^ 32 := by norm_num
  simp only [parseHeaderFields]
  simp only [HeaderFields.mk.injEq]
  refine ⟨?_, ?_, ?_, ?_, ?_, ?_⟩
  · rw [h9, List.take_left' (length_packBE 8 t),
      unpackBE_packBE (by rw [h256_8]; exact ht)]
  · rw [h17, List.take_left' (length_packBE 4 od.length),
      unpackBE_packBE (by rw [h256_4]; exact hod)]
  · rw [h21, List.take_left' (length_packBE 4 pd.length),
      unpackBE_packBE (by rw [h256_4]; exact hpd)]
  · rw [h25]
    rfl
  · rw [h26]
    rfl
  · rw [h27, List.take_left' (by rw [List.length_take]; omega)]

theorem isPrefixOf_eq_false_of_lt_length :
    ∀ (p A : List Bool), A.length < p.length → p.isPrefixOf A = false
  | [], A, h => by simp at h
  | a :: p, [], _ => rfl
  | a :: p, x :: A, h => by
    show (a == x && p.isPrefixOf A) = false
    rw [isPrefixOf_eq_false_of_lt_length p A (by simpa using h)]
    simp

/-- Byte conversion as the specification words it: byte `k` of the output is
the value of bits `[8k, 8k+8)` of the stream, most-significant bit first; a
trailing partial byte is discarded. -/
def bytesSpec (l : List Bool) : List Nat :=
  (List.range (l.length / 8)).map (fun k => bitsVal ((l.drop (8 * k)).take 8))

theorem bitsToBytes_eq_bytesSpec : ∀ l : List Bool, bitsToBytes l = bytesSpec l
  | [] => by simp [bitsToBytes, bytesSpec]
  | [_] => by simp [bitsToBytes, bytesSpec]
  | [_, _] => by simp [bitsToBytes, bytesSpec]
  | [_, _, _] => by simp [bitsToBytes, bytesSpec]
  | [_, _, _, _] => by simp [bitsToBytes, bytesSpec]
  | [_, _, _, _, _] => by simp [bitsToBytes, bytesSpec]
  | [_, _, _, _, _, _] => by simp [bitsToBytes, bytesSpec]
  | [_, _, _, _, _, _, _] => by simp [bitsToBytes, bytesSpec]
  | b0 :: b1 :: b2 :: b3 :: b4 :: b5 :: b6 :: b7 :: rest => by
    rw [show bitsToBytes (b0 :: b1 :: b2 :: b3 :: b4 :: b5 :: b6 :: b7 :: rest) =
        bitsVal [b0, b1, b2, b3, b4, b5, b6, b7] :: bitsToBytes rest from rfl,
      bitsToBytes_eq_bytesSpec rest, bytesSpec, bytesSpec]
    have hlen : (b0 :: b1 :: b2 :: b3 :: b4 :: b5 :: b6 :: b7 :: rest).length / 8 =
        rest.length / 8 + 1 := by
      simp only [List.length_cons]
      rw [show rest.length + 1 + 1 + 1 + 1 + 1 + 1 + 1 + 1 = rest.length + 8 from
        by omega, Nat.add_div_right _ (by omega)]
    rw [hlen, List.range_succ_eq_map, List.map_cons, List.map_map]
    refine congrArg₂ _ (by rw [Nat.mul_zero, List.drop_zero]; rfl) ?_
    apply List.map_congr_left
    intro k _
    show bitsVal (((b0 :: b1 :: b2 :: b3 :: b4 :: b5 :: b6 :: b7 :: rest).drop
      (8 * (k + 1))).take 8) = bitsVal ((rest.drop (8 * k)).take 8)
    rw [show 8 * (k + 1) = 8 + 8 * k from by ring, ← List.drop_drop]
    rfl

/-- C9: the sequential extractor concatenates the low `b` bits of every
sample in index order, truncates the bitstream at the start of its least
end-marker occurrence (scanning stops there), converts 8 bits at a time
most-significant-bit first discarding a trailing partial byte, and converts
the entire stream when the marker never occurs. -/
theorem c9_sequential_extract_spec (img : List Nat) (b : Nat) :
    (∀ i, endMarker.isPrefixOf ((imageBits img b).drop i) = true →
      (∀ j, j < i → endMarker.isPrefixOf ((imageBits img b).drop j) = false) →
      lsb_extract_secure img b = bytesSpec ((imageBits img b).take i)) ∧
    ((∀ j, endMarker.isPrefixOf ((imageBits img b).drop j) = false) →
      lsb_extract_secure img b = bytesSpec (imageBits img b)) := by
  constructor
  · intro i h1 h2
    rw [lsb_extract_secure,
      truncAtMarker_eq_take (firstOcc_eq_some_iff.mpr ⟨h1, h2⟩),
      bitsToBytes_eq_bytesSpec]
  · intro h
    rw [lsb_extract_secure,
      truncAtMarker_eq_self (firstOcc_eq_none_iff.mpr h),
      bitsToBytes_eq_bytesSpec]

/-- Witness for C9 at two concrete buffers: one whose bitstream starts with
the end marker (`15 × 0xFF` then `0xFE` at bit depth 1), one without any
marker occurrence. -/
theorem c9_witness :
    lsb_extract_secure (List.replicate 15 255 ++ [254]) 1 =
      bytesSpec ((imageBits (List.replicate 15 255 ++ [254]) 1).take 0) ∧
    lsb_extract_secure [0, 0] 1 = bytesSpec (imageBits [0, 0] 1) := by
  constructor
  · exact (c9_sequential_extract_spec (List.replicate 15 255 ++ [254]) 1).1 0
      (by decide) (fun j hj => absurd hj (by omega))
  · refine (c9_sequential_extract_spec [0, 0] 1).2
      (fun j => isPrefixOf_eq_false_of_lt_length _ _ ?_)
    have h2 : (imageBits [0, 0] 1).length = 2 := by decide
    rw [List.length_drop, h2, endMarker_length]
    omega

/-- C5: for any permutation of the sample indices (in particular the one the
source derives from any password), the permuted extractor returns exactly
the sequential extractor's bytes: the password-derived permutation only
changes the visiting order, while the extracted bits are reassembled into
the bitstream in buffer-index order. -/
theorem c5_random_extract_eq_sequential (img : List Nat) (b : Nat)
    (indices : List Nat) (hperm : indices.Perm (List.range img.length)) :
    lsb_random_extract img b indices = lsb_extract_secure img b := by
  rw [lsb_random_extract, fillSlots_flatten b img indices hperm,
    lsb_extract_secure]

/-- Witness for C5 on a concrete 3-sample buffer and a nontrivial
permutation. -/
theorem c5_witness :
    ([2, 0, 1] : List Nat).Perm (List.range ([10, 255, 7] : List Nat).length) ∧
    lsb_random_extract [10, 255, 7] 2 [2, 0, 1] =
      lsb_extract_secure [10, 255, 7] 2 :=
  ⟨by decide,
    c5_random_extract_eq_sequential [10, 255, 7] 2 [2, 0, 1] (by decide)⟩

/-- C4: building the 43-byte fixed-layout header and parsing it at the fixed
offsets reproduces every field exactly (magic, timestamp, original size,
processed size, encrypted flag, compressed flag, 16-byte checksum). -/
theorem c4_header_roundtrip (digest : List Nat → List Nat)
    (od pd : List Nat) (enc : Bool) (t : Nat)
    (hod : od.length < 2 ^ 32) (hpd : pd.length < 2 ^ 32) (ht : t < 2 ^ 64)
    (hdig : 16 ≤ (digest od).length) :
    (create_secure_header digest od pd enc t).length = 43 ∧
    (create_secure_header digest od pd enc t).take 9 = magic ∧
    parseHeaderFields (create_secure_header digest od pd enc t) =
      ⟨t, od.length, pd.length, if enc then 1 else 0, 1,
        (digest od).take 16⟩ := by
  refine ⟨length_create_secure_header digest od pd enc t hdig, ?_, ?_⟩
  · have h := take9_create_secure_header digest od pd enc t []
    rwa [List.append_nil] at h
  · have h := parse_create_header digest od pd enc t [] hod hpd ht hdig
    rwa [List.append_nil] at h

/-- Witness for C4 at concrete field values. -/
theorem c4_witness :
    (create_secure_header (fun _ => List.range 32) [1, 2] [3, 4, 5] true
      123456789).length = 43 ∧
    (create_secure_header (fun _ => List.range 32) [1, 2] [3, 4, 5] true
      123456789).take 9 = magic ∧
    parseHeaderFields (create_secure_header (fun _ => List.range 32) [1, 2]
      [3, 4, 5] true 123456789) =
      ⟨123456789, ([1, 2] : List Nat).length, ([3, 4, 5] : List Nat).length,
        if true then 1 else 0, 1,
        ((fun _ => List.range 32) ([1, 2] : List Nat)).take 16⟩ :=
  c4_header_roundtrip (fun _ => List.range 32) [1, 2] [3, 4, 5] true 123456789
    (by decide) (by decide) (by decide) (by decide)

/-- C7 (amended): `analyze_capacity` is a pure function of the buffer shape;
for each bit depth `b ∈ {1,2,3,4}` it reports
`capacityBytes = floor((sampleCount·b − 256) / 8)`, and its advisory
recommends 1-2 bits exactly when the *pixel* count `height·width` (not the
sample count) exceeds 1,000,000. -/
theorem c7_capacity_formula_advisory (h w c b : Nat)
    (hb : b ∈ ([1, 2, 3, 4] : List Nat)) :
    (b, Int.fdiv (((h * w * c : Nat) : Int) * b - 256) 8) ∈
      (analyze_capacity h w c).fst ∧
    ((analyze_capacity h w c).snd = .stealthLowBits ↔ h * w > 1000000) := by
  constructor
  · exact List.mem_map.mpr ⟨b, hb, rfl⟩
  · rw [analyze_capacity]
    by_cases hp : h * w > 1000000
    · simp [hp]
    · simp [hp]

/-- Witness for C7 at a concrete shape and bit depth. -/
theorem c7_witness :
    (2, Int.fdiv (((100 * 50 * 3 : Nat) : Int) * 2 - 256) 8) ∈
      (analyze_capacity 100 50 3).fst ∧
    ((analyze_capacity 100 50 3).snd = .stealthLowBits ↔
      100 * 50 > 1000000) :=
  c7_capacity_formula_advisory 100 50 3 2 (by decide)

/-- C7 counterexample: a 500×800 RGB buffer has 1,200,000 samples — more
than 1,000,000 — yet the advisory recommends 2-4 bits, because the source
compares `shape[0] * shape[1]` (the 400,000 pixels), not the sample count. -/
theorem c7_counterexample :
    500 * 800 * 3 > 1000000 ∧
    (analyze_capacity 500 800 3).snd = Advisory.capacityHighBits := by
  exact ⟨by decide, by decide⟩

theorem extractionChain_empty_pw
    (d1 d2 : List Nat → String → Except String (List Nat))
    (dcmp : List Nat → Except String (List Nat)) (enc cmp : Nat)
    (dp : List Nat) :
    extractionChain d1 dcmp enc cmp dp "" =
      extractionChain d2 dcmp enc cmp dp "" := by
  rw [extractionChain, extractionChain,
    if_neg (fun hc => hc.2 rfl), if_neg (fun hc => hc.2 rfl)]

/-- C3: when the header guards pass but the decrypt/decompress chain fails
with cause `e`, `_process_extracted_data` does not raise: it retries raw
decompression of the *untouched* extracted bytes, and if that also fails it
returns the extracted bytes verbatim with `{'success': False, 'error': e}`.
(The function is total in this embedding — it always returns a typed
result.) -/
theorem c3_fallback_chain (digest : List Nat → List Nat)
    (decrypt : List Nat → String → Except String (List Nat))
    (decompress : List Nat → Except String (List Nat))
    (eb : List Nat) (pw : String) (e : String)
    (hlen : ¬ eb.length < 32) (hmagic : eb.take 9 = magic)
    (hfail : extractionChain decrypt decompress
      (parseHeaderFields eb).encrypted (parseHeaderFields eb).compressed
      ((eb.drop 43).take (parseHeaderFields eb).processed_size) pw =
        .error e) :
    process_extracted_data digest decrypt decompress eb pw =
      match decompress eb with
      | .ok d2 => (d2, .legacyOk)
      | .error _ => (eb, .failed e) := by
  rw [process_extracted_data, if_neg hlen, if_neg (not_not_intro hmagic),
    hfail]

/-- Witness for C3: a 43-byte input with a valid magic and the compressed
flag set, together with a decompressor that rejects everything; both
decompression attempts fail, so the raw bytes come back with the original
cause. -/
theorem c3_witness :
    (¬ (magic ++ (List.replicate 17 0 ++ ([1] ++ List.replicate 16 0))).length
        < 32) ∧
    (magic ++ (List.replicate 17 0 ++ ([1] ++ List.replicate 16 0))).take 9 =
      magic ∧
    process_extracted_data (fun _ => []) (fun _ _ => .error "bad-key")
        (fun _ => .error "boom")
        (magic ++ (List.replicate 17 0 ++ ([1] ++ List.replicate 16 0))) "" =
      (magic ++ (List.replicate 17 0 ++ ([1] ++ List.replicate 16 0)),
        .failed "boom") := by
  refine ⟨by decide, by decide, ?_⟩
  exact c3_fallback_chain (fun _ => []) (fun _ _ => .error "bad-key")
    (fun _ => .error "boom") _ "" "boom" (by decide) (by decide) (by decide)

/-- C10: with the encrypted flag set and an empty password,
`_process_extracted_data` never invokes the decrypt function at all — its
result is independent of which decrypt function is supplied, so the
still-encrypted payload slice is passed onward to decompression; no
missing-password error exists, and the call still returns a typed result. -/
theorem c10_empty_password_skips_decrypt (digest : List Nat → List Nat)
    (decrypt1 decrypt2 : List Nat → String → Except String (List Nat))
    (decompress : List Nat → Except String (List Nat)) (eb : List Nat)
    (henc : (parseHeaderFields eb).encrypted = 1) :
    process_extracted_data digest decrypt1 decompress eb "" =
      process_extracted_data digest decrypt2 decompress eb "" := by
  rw [process_extracted_data, process_extracted_data,
    extractionChain_empty_pw decrypt1 decrypt2]

/-- Witness for C10: an envelope whose encrypted byte (offset 25) is 1,
processed with an empty password and two decrypt functions that disagree on
everything. -/
theorem c10_witness :
    (parseHeaderFields
      (magic ++ (List.replicate 16 0 ++ ([1] ++ List.replicate 17 0)))).encrypted
      = 1 ∧
    process_extracted_data (fun _ => []) (fun _ _ => .error "refuse")
        (fun d => .ok d)
        (magic ++ (List.replicate 16 0 ++ ([1] ++ List.replicate 17 0))) "" =
      process_extracted_data (fun _ => []) (fun _ _ => .ok [9, 9, 9])
        (fun d => .ok d)
        (magic ++ (List.replicate 16 0 ++ ([1] ++ List.replicate 17 0))) "" :=
  ⟨by decide,
    c10_empty_password_skips_decrypt (fun _ => [])
      (fun _ _ => .error "refuse") (fun _ _ => .ok [9, 9, 9])
      (fun d => .ok d) _ (by decide)⟩

/-- C8: a successful sequential embed of framed `data` at bit depth `b`
writes only the first `ceil((8·len(data)+16)/b)` samples — every remaining
sample keeps its exact value — and in each written sample only the low `b`
bits change: they become the next bitstream chunk, while the high `8−b`
bits keep their original value. -/
theorem c8_sequential_embed_frame_effect (img data stego : List Nat) (b : Nat)
    (hb1 : 1 ≤ b) (hb4 : b ≤ 4) (himg : ∀ v ∈ img, v < 256)
    (hok : lsb_embed_secure img data b = .ok stego) :
    stego.length = img.length ∧
    (∀ i, i < img.length → (8 * data.length + 16 + b - 1) / b ≤ i →
      stego.getD i 0 = img.getD i 0) ∧
    (∀ i, i < img.length → i < (8 * data.length + 16 + b - 1) / b →
      stego.getD i 0 % 2 ^ b =
        chunkVal b (((bytesToBits data ++ endMarker).drop (i * b)).take b) ∧
      stego.getD i 0 / 2 ^ b = img.getD i 0 / 2 ^ b) := by
  have hLval : (bytesToBits data ++ endMarker).length = 8 * data.length + 16 := by
    rw [List.length_append, length_bytesToBits, endMarker_length]
  rw [lsb_embed_secure] at hok
  by_cases hcap : (bytesToBits data ++ endMarker).length > img.length * b
  · rw [if_pos hcap] at hok
    cases hok
  · rw [if_neg hcap] at hok
    injection hok with hok
    subst hok
    refine ⟨length_embedLoop b img _, ?_, ?_⟩
    · intro i hi hge
      rw [embedLoop_getD b hb1 img _ i hi, if_neg ?_]
      intro hc
      have h2 := (lt_ceil_iff hb1).mp hc
      rw [hLval] at h2
      omega
    · intro i hi hlt
      have hc : i * b < (bytesToBits data ++ endMarker).length := by
        rw [hLval]
        exact (lt_ceil_iff hb1).mpr hlt
      rw [embedLoop_getD b hb1 img _ i hi, if_pos hc]
      have hchunk :
          (((bytesToBits data ++ endMarker).drop (i * b)).take b).length ≤ b := by
        rw [List.length_take]
        omega
      have hmem : img.getD i 0 ∈ img := by
        rw [List.getD_eq_getElem img 0 hi]
        exact List.getElem_mem _
      exact ⟨writeSample_mod _ _ hchunk,
        writeSample_div _ _ (himg _ hmem) hchunk⟩

/-- Witness for C8: a one-byte payload at bit depth 4 in an 8-sample buffer
of `0xFF`: the first 6 samples carry the 24 bitstream chunks, the last 2 are
untouched. -/
theorem c8_witness :
    ([244, 241, 255, 255, 255, 254, 255, 255] : List Nat).length =
      (List.replicate 8 (255 : Nat)).length ∧
    (∀ i, i < (List.replicate 8 (255 : Nat)).length →
      (8 * ([65] : List Nat).length + 16 + 4 - 1) / 4 ≤ i →
      ([244, 241, 255, 255, 255, 254, 255, 255] : List Nat).getD i 0 =
        (List.replicate 8 (255 : Nat)).getD i 0) ∧
    (∀ i, i < (List.replicate 8 (255 : Nat)).length →
      i < (8 * ([65] : List Nat).length + 16 + 4 - 1) / 4 →
      ([244, 241, 255, 255, 255, 254, 255, 255] : List Nat).getD i 0 % 2 ^ 4 =
        chunkVal 4 (((bytesToBits [65] ++ endMarker).drop (i * 4)).take 4) ∧
      ([244, 241, 255, 255, 255, 254, 255, 255] : List Nat).getD i 0 / 2 ^ 4 =
        (List.replicate 8 (255 : Nat)).getD i 0 / 2 ^ 4) :=
  c8_sequential_embed_frame_effect (List.replicate 8 255) [65]
    [244, 241, 255, 255, 255, 254, 255, 255] 4 (by decide) (by decide)
    (by decide) (by decide)

/-- C2 (code bug): with the permuted (`LSB_RANDOM`) technique, embedding a
payload whose required bits (368) exceed the available bits (30·1 = 30)
does *not* raise a capacity error — `_lsb_random_embed` has no capacity
check. The call returns a mutated buffer (here every sample is written, so
the output differs from the carrier), for every permutation the password
could derive. The claim's demand — `CapacityError` before any mutation and
a byte-identical buffer — is violated. -/
theorem c2_random_embed_overflow_no_error (indices : List Nat)
    (hperm : indices.Perm (List.range 30)) :
    8 * (prepare_data_with_security (fun _ => List.replicate 32 7)
        (fun d => d) (fun d _ => d) [0] "" 0).length + 16 > 30 * 1 ∧
    embed_data_secure (fun _ => List.replicate 32 7) (fun d => d)
        (fun d _ => d) (List.replicate 30 255) [0] "" 1 .LSB_RANDOM 0
        indices =
      .ok (lsb_random_embed (List.replicate 30 255)
        (prepare_data_with_security (fun _ => List.replicate 32 7)
          (fun d => d) (fun d _ => d) [0] "" 0) 1 indices) ∧
    lsb_random_embed (List.replicate 30 255)
        (prepare_data_with_security (fun _ => List.replicate 32 7)
          (fun d => d) (fun d _ => d) [0] "" 0) 1 indices ≠
      List.replicate 30 255 := by
  refine ⟨by decide, ?_, ?_⟩
  · rw [embed_data_secure, if_neg (not_not_intro ⟨by omega, by omega⟩),
      if_neg (by decide)]
  intro heq
  have hnd : indices.Nodup := hperm.nodup_iff.mpr (List.nodup_range 30)
  have hlen : indices.length = 30 := by
    rw [hperm.length_eq, List.length_range]
  have hbound : ∀ i ∈ indices, i < (List.replicate 30 (255 : Nat)).length := by
    intro i hi
    rw [List.length_replicate]
    exact List.mem_range.mp (hperm.mem_iff.mp hi)
  have h0 : 0 < indices.length := by omega
  have hidx : indices.getD 0 0 < 30 := by
    have hmem : indices.getD 0 0 ∈ indices := by
      rw [List.getD_eq_getElem _ _ h0]
      exact List.getElem_mem _
    exact List.mem_range.mp (hperm.mem_iff.mp hmem)
  have hchar := randLoop_getD 1 (by omega) indices (List.replicate 30 255)
    (bytesToBits (prepare_data_with_security (fun _ => List.replicate 32 7)
      (fun d => d) (fun d _ => d) [0] "" 0) ++ endMarker) 0 hnd hbound h0
    (by decide)
  rw [show lsb_random_embed (List.replicate 30 255)
      (prepare_data_with_security (fun _ => List.replicate 32 7)
        (fun d => d) (fun d _ => d) [0] "" 0) 1 indices =
      randLoop 1 (List.replicate 30 255)
        (bytesToBits (prepare_data_with_security (fun _ => List.replicate 32 7)
          (fun d => d) (fun d _ => d) [0] "" 0) ++ endMarker) indices
      from rfl] at heq
  rw [heq] at hchar
  have h255 : (List.replicate 30 (255 : Nat)).getD (indices.getD 0 0) 0 =
      255 := by
    rw [List.getD_eq_getElem _ _ (by rw [List.length_replicate]; exact hidx)]
    apply List.getElem_replicate
  rw [h255] at hchar
  rw [show writeSample 255 1
      (((bytesToBits (prepare_data_with_security (fun _ => List.replicate 32 7)
        (fun d => d) (fun d _ => d) [0] "" 0) ++ endMarker).drop (0 * 1)).take 1) =
      254 from by decide] at hchar
  exact absurd hchar (by decide)

/-- Witness for C2's theorem at a concrete permutation (reversed range). -/
theorem c2_witness :
    ((List.range 30).reverse).Perm (List.range 30) ∧
    lsb_random_embed (List.replicate 30 255)
        (prepare_data_with_security (fun _ => List.replicate 32 7)
          (fun d => d) (fun d _ => d) [0] "" 0) 1 ((List.range 30).reverse) ≠
      List.replicate 30 255 :=
  ⟨by decide,
    (c2_random_embed_overflow_no_error ((List.range 30).reverse)
      (by decide)).2.2⟩

/-- Unpacking the envelope that `_prepare_data_with_security` framed, with
the same password, recovers the original payload (given the external
compressor/cipher round-trip their inputs). -/
theorem process_prepare (digest compress : List Nat → List Nat)
    (encrypt : List Nat → String → List Nat)
    (decrypt : List Nat → String → Except String (List Nat))
    (decompress : List Nat → Except String (List Nat))
    (data : List Nat) (pw : String) (t : Nat)
    (hod : data.length < 2 ^ 32) (ht : t < 2 ^ 64)
    (hdig16 : 16 ≤ (digest data).length)
    (hps : (if pw ≠ "" then encrypt (compress data) pw
      else compress data).length < 2 ^ 32)
    (hdcmp : decompress (compress data) = .ok data)
    (hdec : pw ≠ "" → decrypt (encrypt (compress data) pw) pw =
      .ok (compress data)) :
    (process_extracted_data digest decrypt decompress
      (prepare_data_with_security digest compress encrypt data pw t)
      pw).fst = data := by
  rw [show prepare_data_with_security digest compress encrypt data pw t =
      create_secure_header digest data
        (if pw ≠ "" then encrypt (compress data) pw else compress data)
        (pw ≠ "") t ++
        (if pw ≠ "" then encrypt (compress data) pw else compress data)
      from rfl]
  rw [process_extracted_data]
  rw [if_neg (by
    rw [List.length_append,
      length_create_secure_header digest data _ _ t hdig16]
    omega)]
  rw [if_neg (not_not_intro (take9_create_secure_header digest data _ _ t _))]
  rw [parse_create_header digest data _ _ t _ hod hps ht hdig16]
  dsimp only
  rw [List.drop_left' (length_create_secure_header digest data _ _ t hdig16),
    List.take_length]
  rw [extractionChain]
  by_cases hpw : pw = ""
  · subst hpw
    rw [if_neg (fun hc => hc.2 rfl)]
    rw [if_neg (fun hc : ("" : String) ≠ "" => hc rfl)]
    simp [Bind.bind, Except.bind, hdcmp]
  · have hdp : decide (pw ≠ "") = true := by
      simp [hpw]
    rw [if_pos hpw]
    rw [if_pos ⟨by rw [if_pos hdp]; omega, hpw⟩]
    rw [hdec hpw]
    simp [Bind.bind, Except.bind, hdcmp]

/-- C1 (amended): the round trip `extract(embed(buffer, D, P, b, T)) = D`
holds for the *sequential* technique whenever (i) the framed envelope's
bitstream contains no occurrence of the 16-bit end marker before the
appended marker itself, (ii) the carrier has sufficient capacity, and
(iii) the external compressor (and, with a password, the cipher) round-trip
the payload. As stated over all payloads and both techniques the claim is
false: see `c1_counterexample`. -/
theorem c1_roundtrip_sequential (digest compress : List Nat → List Nat)
    (encrypt : List Nat → String → List Nat)
    (decrypt : List Nat → String → Except String (List Nat))
    (decompress : List Nat → Except String (List Nat))
    (img data : List Nat) (pw : String) (b t : Nat)
    (hb1 : 1 ≤ b) (hb4 : b ≤ 4) (hdata : data ≠ [])
    (hod : data.length < 2 ^ 32) (ht : t < 2 ^ 64)
    (hdig16 : 16 ≤ (digest data).length)
    (hps : (if pw ≠ "" then encrypt (compress data) pw
      else compress data).length < 2 ^ 32)
    (hframes : ∀ y ∈ prepare_data_with_security digest compress encrypt data
      pw t, y < 256)
    (hcap : (bytesToBits (prepare_data_with_security digest compress encrypt
      data pw t) ++ endMarker).length ≤ img.length * b)
    (hfree : firstOcc (bytesToBits (prepare_data_with_security digest compress
        encrypt data pw t) ++ endMarker) =
      some (bytesToBits (prepare_data_with_security digest compress encrypt
        data pw t)).length)
    (hdcmp : decompress (compress data) = .ok data)
    (hdec : pw ≠ "" → decrypt (encrypt (compress data) pw) pw =
      .ok (compress data)) :
    roundTrip digest compress encrypt decrypt decompress img data pw b
      .LSB t [] = .ok data := by
  rw [roundTrip, embed_data_secure, if_neg (not_not_intro ⟨hb1, hb4⟩),
    if_neg (by simp [hdata])]
  rw [lsb_embed_secure, if_neg (by omega)]
  rw [show Except.map (fun stego => (extract_data_secure digest decrypt
      decompress stego pw b Technique.LSB []).fst)
      (Except.ok (embedLoop b img (bytesToBits (prepare_data_with_security
        digest compress encrypt data pw t) ++ endMarker))) =
      Except.ok ((extract_data_secure digest decrypt decompress
        (embedLoop b img (bytesToBits (prepare_data_with_security digest
          compress encrypt data pw t) ++ endMarker)) pw b Technique.LSB
        []).fst) from rfl]
  rw [extract_data_secure]
  rw [extract_embedLoop img _ b hb1 hcap hframes hfree]
  rw [process_prepare digest compress encrypt decrypt decompress data pw t
    hod ht hdig16 hps hdcmp hdec]
  all_goals exact fun h => Technique.noConfusion h

/-- Witness for the amended C1 at a concrete carrier, payload and benign
timestamp. -/
theorem c1_witness :
    roundTrip (fun _ => List.replicate 32 7) (fun d => d) (fun d _ => d)
      (fun d _ => .ok d) (fun d => .ok d) (List.replicate 250 0) [65] "" 2
      .LSB 5 [] = .ok [65] :=
  c1_roundtrip_sequential (fun _ => List.replicate 32 7) (fun d => d)
    (fun d _ => d) (fun d _ => .ok d) (fun d => .ok d) (List.replicate 250 0)
    [65] "" 2 5 (by decide) (by decide) (by decide) (by decide) (by decide)
    (by decide) (by decide) (by decide) (by decide) (by decide) (by decide)
    (fun h => absurd rfl h)

/-- C1 counterexample: with the sequential technique, bit depth 4, no
password, a 200-sample zero carrier, payload `b'A'`, and the perfectly
reachable clock value `0x68FFFE00` (26 Oct 2025), the timestamp bytes
`FF FE` inside the packed header form the 16-bit end marker at bit offset
112, so extraction truncates inside the header and returns the 14-byte
header prefix — not the payload. The failure is independent of what the
compressor, cipher or hash produce, since bits 0..127 of the envelope are
the fixed magic and timestamp bytes. -/
theorem c1_counterexample :
    roundTrip (fun _ => List.replicate 32 7) (fun d => d) (fun d _ => d)
      (fun d _ => .ok d) (fun d => .ok d) (List.replicate 200 0) [65] "" 4
      .LSB 1761607168 [] =
      .ok [83, 84, 69, 71, 65, 78, 79, 48, 49, 0, 0, 0, 0, 104] ∧
    ([83, 84, 69, 71, 65, 78, 79, 48, 49, 0, 0, 0, 0, 104] : List Nat) ≠
      [65] :=
  ⟨by decide, by decide⟩

/-- C6 (amended): the permuted embed is a deterministic function of the
carrier, payload, password, bit depth, derived permutation, clock value and
encryption randomness — two runs produce byte-identical output exactly when
they observe the same clock value (with the encryption randomness fixed).
Runs at different clock values always differ, whatever permutation the
password derives: the timestamp is packed into the header and written into
the samples. As stated — byte-identical output across repeated runs on the
same declared input — the claim is false: see `c6_counterexample`. -/
theorem c6_determinism_iff_timestamp (digest compress : List Nat → List Nat)
    (encrypt : List Nat → String → List Nat) (img data : List Nat)
    (pw : String) (b : Nat) (indices : List Nat) (t1 t2 : Nat)
    (hb1 : 1 ≤ b) (hb4 : b ≤ 4) (hdata : data ≠ [])
    (hperm : indices.Perm (List.range img.length))
    (ht1 : t1 < 2 ^ 64) (ht2 : t2 < 2 ^ 64)
    (hbytes1 : ∀ y ∈ prepare_data_with_security digest compress encrypt data
      pw t1, y < 256)
    (hbytes2 : ∀ y ∈ prepare_data_with_security digest compress encrypt data
      pw t2, y < 256)
    (hcap : (bytesToBits (prepare_data_with_security digest compress encrypt
      data pw t1) ++ endMarker).length ≤ img.length * b) :
    (embed_data_secure digest compress encrypt img data pw b .LSB_RANDOM t1
        indices =
      embed_data_secure digest compress encrypt img data pw b .LSB_RANDOM t2
        indices) ↔ t1 = t2 := by
  refine ⟨?_, fun h => by rw [h]⟩
  intro heq
  rw [embed_data_secure, embed_data_secure,
    if_neg (not_not_intro ⟨hb1, hb4⟩), if_neg (by simp [hdata]),
    if_neg (not_not_intro ⟨hb1, hb4⟩), if_neg (by simp [hdata])] at heq
  injection heq with heq
  rw [show lsb_random_embed img (prepare_data_with_security digest compress
        encrypt data pw t1) b indices =
      randLoop b img (bytesToBits (prepare_data_with_security digest compress
        encrypt data pw t1) ++ endMarker) indices from rfl,
    show lsb_random_embed img (prepare_data_with_security digest compress
        encrypt data pw t2) b indices =
      randLoop b img (bytesToBits (prepare_data_with_security digest compress
        encrypt data pw t2) ++ endMarker) indices from rfl] at heq
  have hnd : indices.Nodup := hperm.nodup_iff.mpr (List.nodup_range _)
  have hbound : ∀ i ∈ indices, i < img.length := fun i hi =>
    List.mem_range.mp (hperm.mem_iff.mp hi)
  have hilen : indices.length = img.length := by
    rw [hperm.length_eq, List.length_range]
  have hlenp : (prepare_data_with_security digest compress encrypt data pw
      t1).length =
      (prepare_data_with_security digest compress encrypt data pw
        t2).length := by
    simp [prepare_data_with_security, create_secure_header, length_packBE,
      List.length_append]
  have hlenbs : (bytesToBits (prepare_data_with_security digest compress
      encrypt data pw t1) ++ endMarker).length =
      (bytesToBits (prepare_data_with_security digest compress encrypt data
        pw t2) ++ endMarker).length := by
    rw [List.length_append, List.length_append, length_bytesToBits,
      length_bytesToBits, hlenp]
  have hchunks : ∀ k,
      ((bytesToBits (prepare_data_with_security digest compress encrypt data
        pw t1) ++ endMarker).drop (k * b)).take b =
      ((bytesToBits (prepare_data_with_security digest compress encrypt data
        pw t2) ++ endMarker).drop (k * b)).take b := by
    intro k
    by_cases hk : k * b < (bytesToBits (prepare_data_with_security digest
        compress encrypt data pw t1) ++ endMarker).length
    · have hkn : k < indices.length := by
        rw [hilen]
        have h1 : k * b < img.length * b := lt_of_lt_of_le hk hcap
        exact lt_of_mul_lt_mul_right h1 (Nat.zero_le b)
      have h1 := randLoop_getD b hb1 indices img
        (bytesToBits (prepare_data_with_security digest compress encrypt data
          pw t1) ++ endMarker) k hnd hbound hkn hk
      have h2 := randLoop_getD b hb1 indices img
        (bytesToBits (prepare_data_with_security digest compress encrypt data
          pw t2) ++ endMarker) k hnd hbound hkn (by rw [← hlenbs]; exact hk)
      rw [heq] at h1
      have h3 := h1.symm.trans h2
      exact writeSample_inj (by rw [List.length_take]; omega)
        (by rw [List.length_take]; omega)
        (by rw [List.length_take, List.length_take, List.length_drop,
          List.length_drop, hlenbs]) h3
    · push_neg at hk
      rw [List.drop_eq_nil_of_le hk,
        List.drop_eq_nil_of_le (by rw [← hlenbs]; exact hk)]
  have hbs := eq_of_chunks_eq hb1 _ _ hlenbs hchunks
  have hbits : bytesToBits (prepare_data_with_security digest compress
      encrypt data pw t1) =
      bytesToBits (prepare_data_with_security digest compress encrypt data
        pw t2) := List.append_cancel_right hbs
  have hframed : prepare_data_with_security digest compress encrypt data pw
      t1 = prepare_data_with_security digest compress encrypt data pw t2 := by
    rw [← bitsToBytes_bytesToBits hbytes1, ← bitsToBytes_bytesToBits hbytes2,
      hbits]
  rw [show prepare_data_with_security digest compress encrypt data pw t1 =
      create_secure_header digest data
        (if pw ≠ "" then encrypt (compress data) pw else compress data)
        (pw ≠ "") t1 ++
        (if pw ≠ "" then encrypt (compress data) pw else compress data)
      from rfl,
    show prepare_data_with_security digest compress encrypt data pw t2 =
      create_secure_header digest data
        (if pw ≠ "" then encrypt (compress data) pw else compress data)
        (pw ≠ "") t2 ++
        (if pw ≠ "" then encrypt (compress data) pw else compress data)
      from rfl] at hframed
  have hhdr : create_secure_header digest data
      (if pw ≠ "" then encrypt (compress data) pw else compress data)
      (pw ≠ "") t1 =
      create_secure_header digest data
        (if pw ≠ "" then encrypt (compress data) pw else compress data)
        (pw ≠ "") t2 := List.append_cancel_right hframed
  rw [create_secure_header, create_secure_header] at hhdr
  simp only [List.append_assoc] at hhdr
  have hhdr2 := List.append_cancel_left hhdr
  have hP8 : packBE 8 t1 = packBE 8 t2 := List.append_cancel_right hhdr2
  have hun := congrArg unpackBE hP8
  rw [unpackBE_packBE (show t1 < 256 ^ 8 from by
      rw [show (256 : Nat) ^ 8 = 2 ^ 64 from by norm_num]; exact ht1),
    unpackBE_packBE (show t2 < 256 ^ 8 from by
      rw [show (256 : Nat) ^ 8 = 2 ^ 64 from by norm_num]; exact ht2)] at hun
  exact hun

/-- Witness for the amended C6: at a concrete input, two runs are
byte-identical iff their clock values agree (instantiated with clock values
0 and 1, making both sides false). -/
theorem c6_witness :
    (embed_data_secure (fun _ => List.replicate 32 7) (fun d => d)
        (fun d _ => d) (List.replicate 100 0) [65] "p" 4 .LSB_RANDOM 0
        ((List.range 100).reverse) =
      embed_data_secure (fun _ => List.replicate 32 7) (fun d => d)
        (fun d _ => d) (List.replicate 100 0) [65] "p" 4 .LSB_RANDOM 1
        ((List.range 100).reverse)) ↔ (0 : Nat) = 1 :=
  c6_determinism_iff_timestamp (fun _ => List.replicate 32 7) (fun d => d)
    (fun d _ => d) (List.replicate 100 0) [65] "p" 4
    ((List.range 100).reverse) 0 1 (by decide) (by decide) (by decide)
    (by decide) (by decide) (by decide) (by decide) (by decide) (by decide)

/-- C6 counterexample: two runs of the permuted embed on the same declared
input (same carrier, payload, password, bit depth, permutation, encryption
randomness) that observe clock values 0 and 1 produce different stego
buffers — the output is not byte-identical across repeated runs, because
`_create_secure_header` packs `int(time.time())` into the embedded
envelope. -/
theorem c6_counterexample :
    embed_data_secure (fun _ => List.replicate 32 7) (fun d => d)
        (fun d _ => d) (List.replicate 100 0) [65] "p" 4 .LSB_RANDOM 0
        ((List.range 100).reverse) ≠
      embed_data_secure (fun _ => List.replicate 32 7) (fun d => d)
        (fun d _ => d) (List.replicate 100 0) [65] "p" 4 .LSB_RANDOM 1
        ((List.range 100).reverse) := by
  decide

end Stegano
